import Mathlib

/-
  Verification development for the ChessAnalyser repository.

  The Go source is shallowly embedded: strings are modelled as `List Char`
  (with `String` wrappers where convenient), Go `int`/`int64` as `ℤ` or `ℕ`,
  and Go `float64` arithmetic as exact rational arithmetic `ℚ` (every numeric
  constant appearing in the analysed code paths is exactly representable and
  the operations involved are exact at the claimed inputs); division of
  floats is modelled by `qdiv`, which returns `none` exactly when the divisor
  is zero, i.e. when the float result would be non-finite (NaN or ±Inf).
  Go maps are modelled as association lists in iteration order.
-/

namespace ChessAnalyser

/-- Go `unicode.IsSpace` restricted to the ASCII range (the only characters
occurring in the inputs considered here). -/
def goIsSpace (c : Char) : Bool :=
  c = ' ' || c = '\t' || c = '\n' || c = '\x0b' || c = '\x0c' || c = '\r'

/-- Go `strings.TrimSpace` on the character-list model. -/
def trimSpace (s : List Char) : List Char :=
  ((s.dropWhile goIsSpace).reverse.dropWhile goIsSpace).reverse

/-! ## Service data model (internal/models + internal/service) -/

/-- `models.AnalysisResult`: result of one engine analysis call.
Field defaults are the Go zero values. -/
structure AnalysisResult where
  position : List Char := []
  bestMove : List Char := []
  evaluation : ℚ := 0
  depth : ℤ := 0
  nodes : ℤ := 0
  time : ℤ := 0
  pv : List (List Char) := []
  multiPV : ℤ := 0
  deriving DecidableEq

/-- `models.MoveAlternative`. -/
structure MoveAlternative where
  move : List Char
  evaluation : ℚ
  depth : ℤ
  deriving DecidableEq

/-- `models.MoveAnalysis`. -/
structure MoveAnalysis where
  move : List Char
  moveNumber : ℤ
  evaluation : ℚ
  accuracy : ℚ
  blunder : Bool
  mistake : Bool
  inaccuracy : Bool
  bestMove : List Char
  alternatives : List MoveAlternative
  deriving DecidableEq

/-- `parser.ParsedMove` (FEN/comment/NAG default to Go zero values). -/
structure ParsedMove where
  moveNumber : ℤ
  move : List Char
  color : String
  fen : List Char := []
  deriving DecidableEq

/-- `AnalysisService.calculateMoveAccuracy` (internal/service/analysis.go):
`if evaluation >= 0 { return 100.0 - evaluation*10 } else { return 100.0 + evaluation*15 }`. -/
def calculateMoveAccuracy (evaluation : ℚ) : ℚ :=
  if 0 ≤ evaluation then 100 - evaluation * 10 else 100 + evaluation * 15

/-- `AnalysisService.createMoveAnalysis` (internal/service/analysis.go). -/
def createMoveAnalysis (move : ParsedMove) (result : AnalysisResult) (moveNumber : ℤ) :
    MoveAnalysis :=
  let accuracy := calculateMoveAccuracy result.evaluation
  let blunder := decide (accuracy < 50)
  let mistake := decide (50 ≤ accuracy) && decide (accuracy < 80)
  let inaccuracy := decide (80 ≤ accuracy) && decide (accuracy < 90)
  let alternatives : List MoveAlternative :=
    if 1 < result.pv.length then
      [⟨result.pv.getD 0 [], result.evaluation, result.depth⟩]
    else []
  { move := move.move
    moveNumber := moveNumber
    evaluation := result.evaluation
    accuracy := accuracy
    blunder := blunder
    mistake := mistake
    inaccuracy := inaccuracy
    bestMove := result.bestMove
    alternatives := alternatives }

/-- The best-move tally condition of the counting chain in
`performGameAnalysis`: a move reaches the `Accuracy >= 95` test only after
the blunder/mistake/inaccuracy branches all failed. -/
def countsTowardBest (ma : MoveAnalysis) : Bool :=
  !ma.blunder && !ma.mistake && !ma.inaccuracy && decide (95 ≤ ma.accuracy)

/-! ## Analysis cache (internal/service/analysis.go, addToCache) -/

/-- `maxCacheSize` as configured in `NewAnalysisService` (1000). -/
def maxCacheSize : ℕ := 1000

/-- `AnalysisService.addToCache`, tracked at the level of the cache's key
set.  The Go map is modelled as its key list in iteration order; the
eviction loop (`for k := range s.cache { delete(s.cache, k); break }`)
removes one existing key, modelled as dropping the first; `s.cache[key] =
analysis` leaves the key set unchanged when the key is present and adds it
otherwise.  Which key Go's nondeterministic iteration picks does not affect
the cardinality facts proved below. -/
def addToCache (maxSize : ℕ) (cache : List String) (key : String) : List String :=
  let cache := if maxSize ≤ cache.length then cache.drop 1 else cache
  if key ∈ cache then cache else cache ++ [key]

/-! ## Claim C1 -/

def sampleParsedMove : ParsedMove := ⟨1, "e4".data, "white", []⟩

def sampleResultFifth : AnalysisResult := { evaluation := 1/5 }

/-! ## Notation parser (internal/parser/pgn.go)

String machinery modelling the Go standard-library helpers used by the
parser, on the `List Char` model.  Recursions that consume a variable
number of characters per step take a fuel argument; every wrapper passes
`length + 1`, which is enough fuel since each step consumes at least one
character. -/

/-- Go `strings.HasPrefix` (does `s` start with the sequence `pre`?). -/
def startsWithSeq : List Char → List Char → Bool
  | [], _ => true
  | _ :: _, [] => false
  | a :: as, b :: bs => a = b && startsWithSeq as bs

/-- Go `strings.HasSuffix`. -/
def hasSuffixSeq (suf s : List Char) : Bool :=
  startsWithSeq suf.reverse s.reverse

/-- Go `strings.TrimSuffix` (removes one copy of `suf` if present). -/
def trimSuffixSeq (suf s : List Char) : List Char :=
  if hasSuffixSeq suf s then s.take (s.length - suf.length) else s

/-- Splits `s` at the leftmost occurrence of `sep`, returning the part
before and the part after, as Go's `strings.Index` would find it. -/
def breakSeq (sep : List Char) : List Char → Option (List Char × List Char)
  | [] => if sep = [] then some ([], []) else none
  | c :: t =>
    if startsWithSeq sep (c :: t) then some ([], (c :: t).drop sep.length)
    else (breakSeq sep t).map (fun p => (c :: p.1, p.2))

def splitOnSeqAux (sep : List Char) : ℕ → List Char → List (List Char)
  | 0, s => [s]
  | fuel + 1, s =>
    match breakSeq sep s with
    | none => [s]
    | some (b, rest) => b :: splitOnSeqAux sep fuel rest

/-- Go `strings.Split` for a non-empty separator. -/
def splitOnSeq (sep s : List Char) : List (List Char) :=
  splitOnSeqAux sep (s.length + 1) s

/-- Go `strings.Contains`. -/
def containsSeqAux : ℕ → List Char → List Char → Bool
  | 0, _, _ => false
  | _ + 1, sub, [] => startsWithSeq sub []
  | fuel + 1, sub, c :: t => startsWithSeq sub (c :: t) || containsSeqAux fuel sub t

def containsSeq (sub s : List Char) : Bool :=
  containsSeqAux (s.length + 1) sub s

def notSpace (c : Char) : Bool := !goIsSpace c

/-- Go `strings.Fields`: split around runs of whitespace. -/
def goFieldsAux : ℕ → List Char → List (List Char)
  | 0, _ => []
  | fuel + 1, s =>
    let s := s.dropWhile goIsSpace
    if s = [] then [] else s.takeWhile notSpace :: goFieldsAux fuel (s.dropWhile notSpace)

def goFields (s : List Char) : List (List Char) :=
  goFieldsAux (s.length + 1) s

def allDigits (s : List Char) : Bool := s.all Char.isDigit

/-- Numeric value of a digit string. -/
def digitsVal (s : List Char) : ℕ :=
  s.foldl (fun acc c => acc * 10 + (c.toNat - 48)) 0

/-- Go `strconv.Atoi`: optional sign followed by at least one digit,
consuming the whole string, failing outside the 64-bit signed range. -/
def atoi (s : List Char) : Option ℤ :=
  match s with
  | [] => none
  | '+' :: t =>
      if !t.isEmpty && allDigits t && decide (digitsVal t ≤ 9223372036854775807)
      then some ((digitsVal t : ℤ)) else none
  | '-' :: t =>
      if !t.isEmpty && allDigits t && decide (digitsVal t ≤ 9223372036854775808)
      then some (-(digitsVal t : ℤ)) else none
  | _ =>
      if allDigits s && decide (digitsVal s ≤ 9223372036854775807)
      then some ((digitsVal s : ℤ)) else none

/-- Skip to just after the next close brace, if any (the close-brace search
of the brace-comment pattern). -/
def afterCloseBrace : List Char → Option (List Char)
  | [] => none
  | c :: t => if c = '\x7d' then some t else afterCloseBrace t

/-- Removal of brace-delimited comments, as the non-overlapping
replace-all of the brace pattern does: an unclosed open brace is not a
match and is kept. -/
def removeBracesAux : ℕ → List Char → List Char
  | 0, s => s
  | _ + 1, [] => []
  | fuel + 1, c :: t =>
    if c = '\x7b' then
      match afterCloseBrace t with
      | some rest => removeBracesAux fuel rest
      | none => c :: removeBracesAux fuel t
    else c :: removeBracesAux fuel t

def removeBraces (s : List Char) : List Char :=
  removeBracesAux (s.length + 1) s

/-- Truncation at the first semicolon (`strings.Index` + slice). -/
def cutSemicolon (s : List Char) : List Char :=
  s.takeWhile (fun c => c ≠ ';')

/-- Removal of numeric annotation glyphs: a dollar sign followed by at
least one digit, digits taken greedily. -/
def removeNAGsAux : ℕ → List Char → List Char
  | 0, s => s
  | _ + 1, [] => []
  | fuel + 1, c :: t =>
    if c = '$' && (match t with | d :: _ => d.isDigit | [] => false) then
      removeNAGsAux fuel (t.dropWhile Char.isDigit)
    else c :: removeNAGsAux fuel t

def removeNAGs (s : List Char) : List Char :=
  removeNAGsAux (s.length + 1) s

/-- `PGNParser.removeComments`: braces, then semicolon comment, then NAGs,
then trim. -/
def removeComments (text : List Char) : List Char :=
  trimSpace (removeNAGs (cutSemicolon (removeBraces text)))

/-- `PGNParser.determineMoveColor`: even intra-number index is white, odd
is black (the move number argument is unused by the source too). -/
def determineMoveColor (_moveNumber : ℤ) (position : ℕ) : String :=
  if position % 2 = 0 then "white" else "black"

def endsWithDot (p : List Char) : Bool := hasSuffixSeq ['.'] p

def isResultToken (p : List Char) : Bool :=
  p = "1-0".data || p = "0-1".data || p = "1/2-1/2".data || p = "*".data

/-- The token loop of `PGNParser.parseMoveLine`, over the whitespace-split
tokens, carrying the current move number (initially the Go zero value 0)
and the intra-move index. -/
def parseMoveLineAux : List (List Char) → ℤ → ℕ → List ParsedMove
  | [], _, _ => []
  | p :: rest, currentMoveNumber, moveIndex =>
    if endsWithDot p then
      match atoi (trimSuffixSeq ['.'] p) with
      | some n => parseMoveLineAux rest n 0
      | none => parseMoveLineAux rest currentMoveNumber moveIndex
    else if isResultToken p then
      parseMoveLineAux rest currentMoveNumber moveIndex
    else if 0 < currentMoveNumber then
      ⟨currentMoveNumber, p, determineMoveColor currentMoveNumber moveIndex, []⟩ ::
        parseMoveLineAux rest currentMoveNumber (moveIndex + 1)
    else
      parseMoveLineAux rest currentMoveNumber moveIndex

/-- `PGNParser.parseMoveLine`. -/
def parseMoveLine (line : List Char) : List ParsedMove :=
  parseMoveLineAux (goFields (removeComments line)) 0 0

/-- `PGNParser.parseMoves`: trims the section, strips and records a
trailing result marker, then parses each line (`parseMoveLine` never
fails, so the skip-on-error branch of the source is never taken). -/
def parseMoves (movesSection : List Char) : List ParsedMove × List Char :=
  let ms := trimSpace movesSection
  let pr : List Char × List Char :=
    if hasSuffixSeq " 1-0".data ms || hasSuffixSeq " 0-1".data ms ||
        hasSuffixSeq " 1/2-1/2".data ms || hasSuffixSeq " *".data ms then
      match (goFields ms).getLast? with
      | some r => (trimSuffixSeq (' ' :: r) ms, r)
      | none => (ms, [])
    else (ms, [])
  ((splitOnSeq ['\n'] pr.1).foldl
    (fun acc line =>
      let line := trimSpace line
      if line = [] then acc else acc ++ parseMoveLine line) [],
    pr.2)

/-- RE2 character class whitespace as used by the Go regexes here. -/
def reIsSpace (c : Char) : Bool :=
  c = '\t' || c = '\n' || c = '\x0c' || c = '\r' || c = ' '

def isAsciiLetter (c : Char) : Bool :=
  ('A' ≤ c && c ≤ 'Z') || ('a' ≤ c && c ≤ 'z')

/-- One attempted match of the header tag pattern (open bracket, letters,
whitespace, quoted value, close bracket) at the start of `s`; returns the
key, the value, and the remainder after the match. -/
def matchHeaderAt (s : List Char) : Option ((List Char × List Char) × List Char) :=
  match s with
  | [] => none
  | c :: r1 =>
    if c = '[' then
      let key := r1.takeWhile isAsciiLetter
      if key = [] then none
      else
        let r2 := r1.drop key.length
        let sp := r2.takeWhile reIsSpace
        if sp = [] then none
        else
          match r2.drop sp.length with
          | '"' :: r4 =>
            let v := r4.takeWhile (fun x => x ≠ '"')
            match r4.drop v.length with
            | '"' :: ']' :: r6 => some ((key, v), r6)
            | _ => none
          | _ => none
    else none

/-- All non-overlapping leftmost matches of the header tag pattern
(`FindAllStringSubmatch`). -/
def scanHeadersAux : ℕ → List Char → List (List Char × List Char)
  | 0, _ => []
  | _ + 1, [] => []
  | fuel + 1, c :: t =>
    match matchHeaderAt (c :: t) with
    | some (kv, rest) => kv :: scanHeadersAux fuel rest
    | none => scanHeadersAux fuel t

/-- `PGNParser.parseHeaders`: tag pairs with lowercased keys, in match
order (the Go map is modelled as this association list; only key
membership matters below). -/
def parseHeaders (s : List Char) : List (String × String) :=
  (scanHeadersAux (s.length + 1) s).map
    (fun kv => (String.mk (kv.1.map Char.toLower), String.mk kv.2))

def requiredHeaders : List String :=
  ["event", "site", "date", "round", "white", "black", "result"]

def headerKeys (hs : List (String × String)) : List String := hs.map Prod.fst

/-- The first required header that is absent, following the order of the
required-header loop in `ValidatePGN`. -/
def firstMissing (required : List String) (hs : List (String × String)) : Option String :=
  required.find? (fun h => !(headerKeys hs).contains h)

def nnSep : List Char := ['\n', '\n']

/-- `PGNParser.ValidatePGN`. -/
def validatePGN (pgn : List Char) : Except String Unit :=
  if trimSpace pgn = [] then .error "empty PGN"
  else
    match firstMissing requiredHeaders (parseHeaders ((splitOnSeq nnSep pgn).getD 0 [])) with
    | some h => .error ("missing required header: " ++ h)
    | none =>
      if (splitOnSeq nnSep pgn).length < 2 then .error "missing moves section"
      else if trimSpace ((splitOnSeq nnSep pgn).getD 1 []) = [] then .error "empty moves section"
      else .ok ()

/-- `parser.ParsedGame`. -/
structure ParsedGame where
  headers : List (String × String)
  moves : List ParsedMove
  result : List Char
  pgn : List Char
  moveCount : ℕ
  gamePhase : String
  deriving DecidableEq

/-- `PGNParser.determineGamePhase`. -/
def determineGamePhase (moveCount : ℕ) : String :=
  if moveCount ≤ 20 then "opening"
  else if moveCount ≤ 40 then "middlegame"
  else "endgame"

/-- `PGNParser.ParsePGN`. -/
def parsePGN (pgn : List Char) : Except String ParsedGame :=
  if trimSpace pgn = [] then .error "empty PGN string"
  else
    let parts := splitOnSeq nnSep pgn
    if parts.length < 2 then .error "invalid PGN format: missing moves section"
    else
      let headers := parseHeaders (parts.getD 0 [])
      let mr := parseMoves (parts.getD 1 [])
      .ok ⟨headers, mr.1, mr.2, pgn, mr.1.length, determineGamePhase mr.1.length⟩

def validTestPGN : List Char :=
  ("[Event \"Test Game\"]\n[Site \"Test Site\"]\n[Date \"2023.01.01\"]\n[Round \"1\"]\n" ++
    "[White \"TestWhite\"]\n[Black \"TestBlack\"]\n[Result \"1-0\"]\n\n1. e4 e5 1-0").data

/-! ## Protocol client info-line parsing (internal engine code:
`parseInfoLine`, `extractInt`, `extractInt64`, `extractFloat`,
`extractPV`) -/

/-- One attempted match, at the start of `s`, of the regex used by
`extractInt`/`extractInt64`: the literal key, then at least one whitespace
character, then at least one digit (no sign), digits taken greedily.
Returns the digit string's numeric value; the numeric conversion's range
guard is applied by `extractInt`, mirroring the source, where the regex
finds the (leftmost) match first and the `strconv` parse of the captured
digits happens afterwards. -/
def matchIntAt (key s : List Char) : Option ℕ :=
  if startsWithSeq key s then
    let r := s.drop key.length
    let sp := r.takeWhile reIsSpace
    if sp = [] then none
    else
      let ds := (r.drop sp.length).takeWhile Char.isDigit
      if ds = [] then none else some (digitsVal ds)
  else none

def scanIntAux : ℕ → List Char → List Char → Option ℕ
  | 0, _, _ => none
  | _ + 1, key, [] => matchIntAt key []
  | fuel + 1, key, c :: t =>
    match matchIntAt key (c :: t) with
    | some n => some n
    | none => scanIntAux fuel key t

/-- `extractInt` (and the identically-implemented `extractInt64`): value of
the leftmost match of the unsigned-integer pattern after `key` when
`strconv.Atoi`/`ParseInt` succeeds on the captured digits (`err == nil`:
the value fits a signed 64-bit integer), otherwise 0 — an out-of-range
match falls through to the source's final `return 0`, exactly like no
match at all.  Since the pattern has no sign, the result is never
negative. -/
def extractInt (line key : List Char) : ℤ :=
  match scanIntAux (line.length + 1) key line with
  | some n => if n ≤ 9223372036854775807 then (n : ℤ) else 0
  | none => 0

/-- One attempted match of the `extractFloat` regex: the literal key,
whitespace, then an optional minus sign and at least one digit.  Returns
the exact integer value of the matched text; `extractFloatInt` applies
`strconv.ParseFloat`'s semantics to it. -/
def matchFloatAt (key s : List Char) : Option ℤ :=
  if startsWithSeq key s then
    let r := s.drop key.length
    let sp := r.takeWhile reIsSpace
    if sp = [] then none
    else
      match r.drop sp.length with
      | '-' :: r3 =>
        let ds := r3.takeWhile Char.isDigit
        if ds = [] then none else some (-(digitsVal ds : ℤ))
      | r2 =>
        let ds := r2.takeWhile Char.isDigit
        if ds = [] then none else some ((digitsVal ds : ℤ))
  else none

def scanFloatAux : ℕ → List Char → List Char → Option ℤ
  | 0, _, _ => none
  | _ + 1, key, [] => matchFloatAt key []
  | fuel + 1, key, c :: t =>
    match matchFloatAt key (c :: t) with
    | some z => some z
    | none => scanFloatAux fuel key t

/-- Bit length of a natural number.  The fuel 1100 covers every value
below the float64 overflow threshold, the only values this is applied
to. -/
def bitLenAux : ℕ → ℕ → ℕ
  | 0, _ => 0
  | fuel + 1, n => if n = 0 then 0 else bitLenAux fuel (n / 2) + 1

def bitLen (n : ℕ) : ℕ := bitLenAux 1100 n

/-- Correct rounding of an integer magnitude to the nearest
float64-representable value (round to nearest, ties to even), as
`strconv.ParseFloat` performs for an in-range integer string; the
identity below 2^53. -/
def roundFloat64Nat (m : ℕ) : ℕ :=
  if bitLen m ≤ 53 then m
  else
    let e := bitLen m - 53
    let q := m / 2 ^ e
    let r := m % 2 ^ e
    if 2 ^ (e - 1) < r ∨ (r = 2 ^ (e - 1) ∧ q % 2 = 1) then (q + 1) * 2 ^ e
    else q * 2 ^ e

/-- `strconv.ParseFloat` on the integer string the float pattern
captures: fails with `ErrRange` when the magnitude rounds up to or beyond
the largest finite float64 (threshold 2^1024 − 2^970, the smallest
magnitude that rounds to infinity), otherwise returns the correctly
rounded value. -/
def parseFloat64Int (z : ℤ) : Option ℤ :=
  if 2 ^ 1024 - 2 ^ 970 ≤ z.natAbs then none
  else if z < 0 then some (-(roundFloat64Nat z.natAbs : ℤ))
  else some ((roundFloat64Nat z.natAbs : ℤ))

/-- `extractFloat`: the `ParseFloat` value of the leftmost match of the
signed-integer pattern after `key` when the parse succeeds (`err == nil`),
otherwise 0 — an over-range match falls through to the source's final
`return 0`.  The float is always integer-valued, so it is modelled as
`ℤ`. -/
def extractFloatInt (line key : List Char) : ℤ :=
  match scanFloatAux (line.length + 1) key line with
  | some z =>
    match parseFloat64Int z with
    | some v => v
    | none => 0
  | none => 0

/-- `extractPV`: all whitespace-split tokens after the first `pv` token. -/
def extractPVAux : List (List Char) → Bool → List (List Char)
  | [], _ => []
  | p :: rest, inPV =>
    if p = "pv".data then extractPVAux rest true
    else if inPV then p :: extractPVAux rest inPV
    else extractPVAux rest inPV

def extractPV (line : List Char) : List (List Char) :=
  extractPVAux (goFields line) false

/-- The depth/nodes/time updates of `parseInfoLine` (each set only when
the extracted value is positive). -/
def updateDepthNodesTime (line : List Char) (r : AnalysisResult) : AnalysisResult :=
  let r := if 0 < extractInt line "depth".data then
    {r with depth := extractInt line "depth".data} else r
  let r := if 0 < extractInt line "nodes".data then
    {r with nodes := extractInt line "nodes".data} else r
  if 0 < extractInt line "time".data then
    {r with time := extractInt line "time".data} else r

/-- The evaluation update of `parseInfoLine`: a nonzero centipawn score is
converted to pawns; otherwise a nonzero mate score is mapped through the
two sign branches of the source. -/
def updateEvaluation (line : List Char) (r : AnalysisResult) : AnalysisResult :=
  let eval := extractFloatInt line "score cp".data
  if eval ≠ 0 then {r with evaluation := (eval : ℚ) / 100}
  else
    let mate := extractInt line "score mate".data
    if mate ≠ 0 then
      if 0 < mate then {r with evaluation := 1000 - (mate : ℚ)}
      else {r with evaluation := -1000 - (mate : ℚ)}
    else r

/-- The principal-variation update of `parseInfoLine` (last-wins
overwrite of the caller's `pvLines`). -/
def updatePVLines (line : List Char) (pvLines : List (List Char)) : List (List Char) :=
  if containsSeq "pv".data line then
    let pv := extractPV line
    if pv ≠ [] then pv else pvLines
  else pvLines

/-- `StockfishEngine.parseInfoLine`: updates the in-progress result and
the principal-variation accumulator from one `info` line. -/
def parseInfoLine (line : List Char) (r : AnalysisResult)
    (pvLines : List (List Char)) : AnalysisResult × List (List Char) :=
  (updateEvaluation line (updateDepthNodesTime line r), updatePVLines line pvLines)

/-! ## Analysis pipeline (internal/service/analysis.go) -/

/-- Pool/engine interaction events of one `performGameAnalysis` call. -/
inductive PoolEvent where
  | acquire
  | analyzeCall (i : ℕ)
  | release
  deriving DecidableEq

/-- The move-count bound of `performGameAnalysis`: `maxMoves` when it is
positive and smaller than the number of parsed moves, otherwise all
moves. -/
def movesToAnalyze (numMoves : ℕ) (maxMoves : ℤ) : ℕ :=
  if 0 < maxMoves ∧ maxMoves < (numMoves : ℤ) then maxMoves.toNat else numMoves

/-- The pool-interaction trace of `performGameAnalysis`: one `GetEngine`
on entry, one `AnalyzePosition` call per loop iteration (whether or not it
fails), and one deferred `ReturnEngine` on exit. -/
def performGameAnalysisTrace (game : List ParsedMove) (maxMoves : ℤ) : List PoolEvent :=
  PoolEvent.acquire ::
    (((List.range (movesToAnalyze game.length maxMoves)).map PoolEvent.analyzeCall) ++
      [PoolEvent.release])

/-- The statistics accumulated by the move loop of
`performGameAnalysis`. -/
structure LoopState where
  moves : List MoveAnalysis := []
  totalNodes : ℤ := 0
  totalTime : ℤ := 0
  whiteBlunders : ℕ := 0
  blackBlunders : ℕ := 0
  whiteMistakes : ℕ := 0
  blackMistakes : ℕ := 0
  whiteInaccuracies : ℕ := 0
  blackInaccuracies : ℕ := 0
  whiteBestMoves : ℕ := 0
  blackBestMoves : ℕ := 0
  deriving DecidableEq

/-- The white-side branch of the move-quality counting chain. -/
def tallyWhite (st : LoopState) (ma : MoveAnalysis) : LoopState :=
  if ma.blunder then {st with whiteBlunders := st.whiteBlunders + 1}
  else if ma.mistake then {st with whiteMistakes := st.whiteMistakes + 1}
  else if ma.inaccuracy then {st with whiteInaccuracies := st.whiteInaccuracies + 1}
  else if 95 ≤ ma.accuracy then {st with whiteBestMoves := st.whiteBestMoves + 1}
  else st

/-- The black-side branch of the move-quality counting chain. -/
def tallyBlack (st : LoopState) (ma : MoveAnalysis) : LoopState :=
  if ma.blunder then {st with blackBlunders := st.blackBlunders + 1}
  else if ma.mistake then {st with blackMistakes := st.blackMistakes + 1}
  else if ma.inaccuracy then {st with blackInaccuracies := st.blackInaccuracies + 1}
  else if 95 ≤ ma.accuracy then {st with blackBestMoves := st.blackBestMoves + 1}
  else st

/-- One iteration of the move loop of `performGameAnalysis`: the engine
call is abstracted as `analyze i` (the result of `AnalyzePosition` at
iteration `i`); a failed call skips the move and leaves the state
unchanged (`continue`).  The loop index is always in range, so the
default of `getD` is never used. -/
def stepMove (game : List ParsedMove) (analyze : ℕ → Option AnalysisResult)
    (st : LoopState) (i : ℕ) : LoopState :=
  match analyze i with
  | none => st
  | some result =>
    let move := game.getD i ⟨0, [], "", []⟩
    let ma := createMoveAnalysis move result ((i : ℤ) + 1)
    let st := {st with
      moves := st.moves ++ [ma]
      totalNodes := st.totalNodes + result.nodes
      totalTime := st.totalTime + result.time}
    if move.color = "white" then tallyWhite st ma else tallyBlack st ma

/-- Division of float64 values as observable at the finite/non-finite
level: `none` exactly when the divisor is zero (0/0 is NaN and x/0 is
±Inf, neither finite), otherwise the exact quotient. -/
def qdiv (x y : ℚ) : Option ℚ :=
  if y = 0 then none else some (x / y)

/-- `models.GameAccuracy` (float fields carried as `Option ℚ`; the Go
zero value 0.0 is `some 0`). -/
structure GameAccuracy where
  whiteAccuracy : Option ℚ := some 0
  blackAccuracy : Option ℚ := some 0
  averageAccuracy : Option ℚ := some 0
  blunders : ℕ := 0
  mistakes : ℕ := 0
  inaccuracies : ℕ := 0
  bestMoves : ℕ := 0
  deriving DecidableEq

/-- `models.AnalysisSummary`. -/
structure AnalysisSummary where
  totalMoves : ℕ := 0
  totalTime : ℤ := 0
  nodesSearched : ℤ := 0
  gamePhase : String := ""
  complexity : String := ""
  recommendations : List String := []
  deriving DecidableEq

/-- `models.GameAnalysis` (wall-clock timestamp and engine version fields
omitted: no claim concerns them). -/
structure GameAnalysis where
  pgn : List Char := []
  moves : List MoveAnalysis := []
  accuracy : GameAccuracy := {}
  summary : AnalysisSummary := {}
  deriving DecidableEq

/-- `AnalysisService.determineComplexity`. -/
def determineComplexity (accuracy : ℚ) : String :=
  if 90 ≤ accuracy then "low"
  else if 75 ≤ accuracy then "medium"
  else "high"

/-- `AnalysisService.generateRecommendations`, in source order of the
four threshold checks (`avg` is the already-computed average accuracy,
finite on the only call path since the zero-move case returns early). -/
def generateRecommendations (blunders mistakes : ℕ) (avg : ℚ) (gamePhase : String) :
    List String :=
  (if 5 < blunders then
    ["Consider spending more time on tactical calculations to reduce blunders"] else []) ++
  (if 10 < mistakes then
    ["Focus on positional understanding to minimize mistakes"] else []) ++
  (if avg < 80 then
    ["Overall game accuracy could be improved with more careful move selection"] else []) ++
  (if gamePhase = "opening" ∧ avg < 85 then
    ["Study opening theory to improve early game play"] else [])

/-- Per-side move counts and accuracy sums of the statistics loop;
side attribution is `move.MoveNumber % 2 == 1` with Go's truncated `%`
(`Int.tmod`). -/
structure SideTotals where
  whiteMoves : ℕ := 0
  blackMoves : ℕ := 0
  whiteSum : ℚ := 0
  blackSum : ℚ := 0
  deriving DecidableEq

def tallySides (moves : List MoveAnalysis) : SideTotals :=
  moves.foldl
    (fun acc m =>
      if m.moveNumber.tmod 2 = 1 then
        {acc with whiteMoves := acc.whiteMoves + 1, whiteSum := acc.whiteSum + m.accuracy}
      else
        {acc with blackMoves := acc.blackMoves + 1, blackSum := acc.blackSum + m.accuracy})
    {}

/-- `AnalysisService.calculateGameStatistics`: returns the analysis
unchanged when there are no moves (the early return), otherwise fills in
the per-side accuracies (dividing by the side move counts with no zero
guard — `qdiv`), the quality counts, and the summary. -/
def calculateGameStatistics (ga : GameAnalysis) (st : LoopState) : GameAnalysis :=
  if ga.moves.length = 0 then ga
  else
    let totalMoves := ga.moves.length
    let t := tallySides ga.moves
    let avg := (t.whiteSum + t.blackSum) / (totalMoves : ℚ)
    let accuracy : GameAccuracy := {
      whiteAccuracy := qdiv t.whiteSum (t.whiteMoves : ℚ)
      blackAccuracy := qdiv t.blackSum (t.blackMoves : ℚ)
      averageAccuracy := qdiv (t.whiteSum + t.blackSum) (totalMoves : ℚ)
      blunders := st.whiteBlunders + st.blackBlunders
      mistakes := st.whiteMistakes + st.blackMistakes
      inaccuracies := st.whiteInaccuracies + st.blackInaccuracies
      bestMoves := st.whiteBestMoves + st.blackBestMoves }
    let gamePhase := determineGamePhase totalMoves
    let summary : AnalysisSummary := {
      totalMoves := totalMoves
      totalTime := st.totalTime
      nodesSearched := st.totalNodes
      gamePhase := gamePhase
      complexity := determineComplexity avg
      recommendations := generateRecommendations accuracy.blunders accuracy.mistakes avg gamePhase }
    {ga with accuracy := accuracy, summary := summary}

/-- `AnalysisService.performGameAnalysis` with the per-position engine
call abstracted as `analyze` (the `determineGamePhase` helper of the
service is byte-identical to the parser's and is modelled by the same
function). -/
def performGameAnalysis (game : List ParsedMove) (analyze : ℕ → Option AnalysisResult)
    (maxMoves : ℤ) (pgn : List Char) : GameAnalysis :=
  let n := movesToAnalyze game.length maxMoves
  let st := (List.range n).foldl (stepMove game analyze) {}
  calculateGameStatistics { pgn := pgn, moves := st.moves } st

/-- `PGNParser.ExtractPositions`: fills each move's FEN with the
placeholder board parameterized by the move index (never fails). -/
def extractPositions (moves : List ParsedMove) : List ParsedMove :=
  moves.enum.map (fun p =>
    {p.2 with fen :=
      ("rnbqkbnr/pppppppp/8/8/8/8/PPPPPPPP/RNBQKBNR w KQkq - " ++
        toString p.1 ++ " " ++ toString (p.1 / 2 + 1)).data})

/-- `AnalysisService.AnalyzeGame` on a cache miss: validate, parse,
extract positions, analyze.  Validation and parse failures become
validation errors; `ExtractPositions` and `performGameAnalysis` cannot
fail. -/
def analyzeGame (pgn : List Char) (analyze : ℕ → Option AnalysisResult)
    (maxMoves : ℤ) : Except String GameAnalysis :=
  match validatePGN pgn with
  | .error e => .error ("validation error: " ++ e)
  | .ok _ =>
    match parsePGN pgn with
    | .error e => .error ("validation error: " ++ e)
    | .ok game =>
        .ok (performGameAnalysis (extractPositions game.moves) analyze maxMoves game.pgn)

/-- A two-ply parsed game used as concrete input. -/
def game2Moves : List ParsedMove :=
  [⟨1, "e4".data, "white", []⟩, ⟨1, "e5".data, "black", []⟩]

/-- An engine oracle whose first per-position call fails and whose later
calls succeed with evaluation 0. -/
def analyzeFailFirst : ℕ → Option AnalysisResult := fun i =>
  if i = 0 then none else some {}

def isAnalyzeCall : PoolEvent → Bool
  | PoolEvent.analyzeCall _ => true
  | _ => false

/-! ## Engine pool (internal engine code: `NewEnginePool`,
`EnginePool.GetEngine`, `EnginePool.ReturnEngine`)

The pool is a buffered Go channel of capacity N, filled eagerly at
construction with N distinct clients; `GetEngine` is a blocking channel
receive and `ReturnEngine` a channel send.  Its behaviour is modelled as a
labelled transition system: a state holds the FIFO queue of idle clients
and the multiset of (caller, client) pairs currently checked out; an
acquire can complete only by taking the head of a non-empty idle queue (a
receive on an empty channel blocks), and a release returns a held client
to the back of the queue. -/

structure PoolState where
  idle : List ℕ
  held : List (ℕ × ℕ)
  deriving DecidableEq

/-- The pool right after `NewEnginePool`: clients 0..n-1 all idle. -/
def initPool (n : ℕ) : PoolState := ⟨List.range n, []⟩

/-- Removal of one checked-out entry (the released pair). -/
def removeHeld : List (ℕ × ℕ) → ℕ × ℕ → List (ℕ × ℕ)
  | [], _ => []
  | q :: t, p => if q = p then t else q :: removeHeld t p

/-- One observable pool transition: a completed `GetEngine` (only enabled
when an idle client exists; the caller receives the queue head) or a
`ReturnEngine` of a held client. -/
inductive PoolStep : PoolState → PoolState → Prop where
  | acquire (c e : ℕ) (idle : List ℕ) (held : List (ℕ × ℕ)) :
      PoolStep ⟨e :: idle, held⟩ ⟨idle, (c, e) :: held⟩
  | release (c e : ℕ) (idle : List ℕ) (held : List (ℕ × ℕ))
      (hmem : (c, e) ∈ held) :
      PoolStep ⟨idle, held⟩ ⟨idle ++ [e], removeHeld held (c, e)⟩

/-- States reachable from the freshly constructed pool. -/
inductive PoolReachable (n : ℕ) : PoolState → Prop where
  | init : PoolReachable n (initPool n)
  | step {s t : PoolState} : PoolReachable n s → PoolStep s t → PoolReachable n t

/-- Pool invariant: no client appears twice among idle and held clients,
and idle plus held always account for exactly the n pool clients. -/
def poolInv (n : ℕ) (s : PoolState) : Prop :=
  (s.idle ++ s.held.map Prod.snd).Nodup ∧ s.idle.length + s.held.length = n

/-! ## Theorems -/

theorem addToCache_length_le (maxSize : ℕ) (cache : List String) (key : String)
    (hmax : 1 ≤ maxSize) (h : cache.length ≤ maxSize) :
    (addToCache maxSize cache key).length ≤ maxSize := by
  unfold addToCache
  by_cases hfull : maxSize ≤ cache.length
  · simp only [hfull, if_true]
    by_cases hmem : key ∈ cache.drop 1
    · simp only [hmem, if_true, List.length_drop]
      omega
    · simp only [hmem, if_false, List.length_append, List.length_drop,
        List.length_singleton]
      omega
  · simp only [hfull, if_false]
    by_cases hmem : key ∈ cache
    · simp only [hmem, if_true]; exact h
    · simp only [hmem, if_false, List.length_append, List.length_singleton]
      omega

theorem foldl_addToCache_length_le (maxSize : ℕ) (hmax : 1 ≤ maxSize) :
    ∀ (keys : List String) (cache : List String), cache.length ≤ maxSize →
      (keys.foldl (addToCache maxSize) cache).length ≤ maxSize := by
  intro keys
  induction keys with
  | nil => intro cache h; simpa using h
  | cons k rest ih =>
      intro cache h
      simpa using ih (addToCache maxSize cache k)
        (addToCache_length_le maxSize cache k hmax h)

/-- Claim C4: starting from the empty cache, after any sequence of
insertions the number of cached entries never exceeds the configured
maximum cache size (1000): inserting while at capacity first evicts one
existing entry. -/
theorem claim4_cache_never_exceeds_max (keys : List String) :
    (keys.foldl (addToCache maxCacheSize) []).length ≤ maxCacheSize := by
  exact foldl_addToCache_length_le maxCacheSize (by decide) keys [] (by simp)

/-- Claim C1: accuracy equals `100 - e*10` for `e ≥ 0` and `100 + e*15` for
`e < 0`; blunder iff accuracy < 50, mistake iff 50 ≤ accuracy < 80,
inaccuracy iff 80 ≤ accuracy < 90 (so at most one flag is set); a move
counts toward the best-moves tally iff accuracy ≥ 95; evaluation 0 gives
accuracy 100 with no flag, evaluation -6 gives accuracy 10 and blunder,
evaluation 0.2 gives accuracy 98 and is best-move eligible. -/
theorem claim1_accuracy_classification (m : ParsedMove) (r : AnalysisResult) (n : ℤ) :
    ((0 ≤ r.evaluation →
        (createMoveAnalysis m r n).accuracy = 100 - r.evaluation * 10) ∧
      (r.evaluation < 0 →
        (createMoveAnalysis m r n).accuracy = 100 + r.evaluation * 15)) ∧
    ((createMoveAnalysis m r n).blunder = true ↔ (createMoveAnalysis m r n).accuracy < 50) ∧
    ((createMoveAnalysis m r n).mistake = true ↔
      50 ≤ (createMoveAnalysis m r n).accuracy ∧ (createMoveAnalysis m r n).accuracy < 80) ∧
    ((createMoveAnalysis m r n).inaccuracy = true ↔
      80 ≤ (createMoveAnalysis m r n).accuracy ∧ (createMoveAnalysis m r n).accuracy < 90) ∧
    ((createMoveAnalysis m r n).blunder = true →
      (createMoveAnalysis m r n).mistake = false ∧
        (createMoveAnalysis m r n).inaccuracy = false) ∧
    ((createMoveAnalysis m r n).mistake = true →
      (createMoveAnalysis m r n).inaccuracy = false) ∧
    (countsTowardBest (createMoveAnalysis m r n) = true ↔
      95 ≤ (createMoveAnalysis m r n).accuracy) ∧
    (calculateMoveAccuracy 0 = 100 ∧
      (createMoveAnalysis m { evaluation := 0 } n).blunder = false ∧
      (createMoveAnalysis m { evaluation := 0 } n).mistake = false ∧
      (createMoveAnalysis m { evaluation := 0 } n).inaccuracy = false) ∧
    (calculateMoveAccuracy (-6) = 10 ∧
      (createMoveAnalysis m { evaluation := -6 } n).blunder = true) ∧
    (calculateMoveAccuracy (1/5) = 98 ∧
      countsTowardBest (createMoveAnalysis m { evaluation := 1/5 } n) = true) := by
  have hacc : ∀ e : ℚ, (0 ≤ e → calculateMoveAccuracy e = 100 - e * 10) ∧
      (e < 0 → calculateMoveAccuracy e = 100 + e * 15) := by
    intro e
    constructor
    · intro h; simp [calculateMoveAccuracy, h]
    · intro h; simp [calculateMoveAccuracy, not_le.mpr h]
  refine ⟨⟨fun h => ?_, fun h => ?_⟩, ?_, ?_, ?_, ?_, ?_, ?_, ?_, ?_, ?_⟩
  · simp only [createMoveAnalysis]; exact (hacc r.evaluation).1 h
  · simp only [createMoveAnalysis]; exact (hacc r.evaluation).2 h
  · simp [createMoveAnalysis]
  · simp [createMoveAnalysis]
  · simp [createMoveAnalysis]
  · intro h
    simp only [createMoveAnalysis, decide_eq_true_eq] at h
    constructor
    · simp only [createMoveAnalysis, Bool.and_eq_false_iff]
      left; simpa [decide_eq_false_iff_not, not_le] using (by linarith : ¬ 50 ≤ calculateMoveAccuracy r.evaluation)
    · simp only [createMoveAnalysis, Bool.and_eq_false_iff]
      left; simpa [decide_eq_false_iff_not, not_le] using (by linarith : ¬ 80 ≤ calculateMoveAccuracy r.evaluation)
  · intro h
    simp only [createMoveAnalysis, Bool.and_eq_true, decide_eq_true_eq] at h
    simp only [createMoveAnalysis, Bool.and_eq_false_iff]
    left; simpa [decide_eq_false_iff_not, not_le] using (by linarith [h.2] : ¬ 80 ≤ calculateMoveAccuracy r.evaluation)
  · constructor
    · intro h
      simp only [countsTowardBest, Bool.and_eq_true, decide_eq_true_eq] at h
      simpa [createMoveAnalysis] using h.2
    · intro h
      simp only [createMoveAnalysis] at h ⊢
      simp only [countsTowardBest, Bool.and_eq_true, Bool.not_eq_true']
      refine ⟨⟨⟨?_, ?_⟩, ?_⟩, by simpa [createMoveAnalysis] using h⟩
      · simp only [createMoveAnalysis, decide_eq_false_iff_not, not_lt]; linarith
      · simp only [createMoveAnalysis, Bool.and_eq_false_iff]
        right; simp only [decide_eq_false_iff_not, not_lt]; linarith
      · simp only [createMoveAnalysis, Bool.and_eq_false_iff]
        right; simp only [decide_eq_false_iff_not, not_lt]; linarith
  · refine ⟨by norm_num [calculateMoveAccuracy],
      by norm_num [createMoveAnalysis, calculateMoveAccuracy],
      by norm_num [createMoveAnalysis, calculateMoveAccuracy],
      by norm_num [createMoveAnalysis, calculateMoveAccuracy]⟩
  · refine ⟨by norm_num [calculateMoveAccuracy],
      by norm_num [createMoveAnalysis, calculateMoveAccuracy]⟩
  · refine ⟨by norm_num [calculateMoveAccuracy],
      by norm_num [countsTowardBest, createMoveAnalysis, calculateMoveAccuracy]⟩

theorem trimSpace_eq_nil_all (s : List Char) (h : trimSpace s = []) :
    ∀ c ∈ s, goIsSpace c = true := by
  unfold trimSpace at h
  have h1 : (s.dropWhile goIsSpace).reverse.dropWhile goIsSpace = [] := by
    have h0 := congrArg List.reverse h
    simpa using h0
  have h2 : ∀ c ∈ (s.dropWhile goIsSpace).reverse, goIsSpace c = true :=
    List.dropWhile_eq_nil_iff.mp h1
  have h3 : ∀ c ∈ s.dropWhile goIsSpace, goIsSpace c = true := fun c hc =>
    h2 c (List.mem_reverse.mpr hc)
  intro c hc
  rw [← List.takeWhile_append_dropWhile goIsSpace s] at hc
  rcases List.mem_append.mp hc with h4 | h4
  · exact List.mem_takeWhile_imp h4
  · exact h3 c h4

theorem breakSeq_mem (sep : List Char) :
    ∀ (s b rest : List Char), breakSeq sep s = some (b, rest) →
      (∀ c ∈ b, c ∈ s) ∧ (∀ c ∈ rest, c ∈ s) := by
  intro s
  induction s with
  | nil =>
      intro b rest h
      simp only [breakSeq] at h
      by_cases hsep : sep = []
      · simp [hsep] at h
        obtain ⟨hb, hr⟩ := h
        subst hb; subst hr
        exact ⟨by simp, by simp⟩
      · simp [hsep] at h
  | cons c t ih =>
      intro b rest h
      simp only [breakSeq] at h
      by_cases hs : startsWithSeq sep (c :: t) = true
      · simp only [hs, if_true, Option.some.injEq, Prod.mk.injEq] at h
        obtain ⟨hb, hr⟩ := h
        subst hb; subst hr
        exact ⟨by simp, fun x hx => List.drop_subset _ _ hx⟩
      · simp only [hs, if_false, Bool.false_eq_true, Option.map_eq_some'] at h
        obtain ⟨⟨b0, r0⟩, hbr, heq⟩ := h
        cases heq
        have hih := ih b0 r0 hbr
        constructor
        · intro x hx
          rcases List.mem_cons.mp hx with hx | hx
          · simp [hx]
          · exact List.mem_cons_of_mem c (hih.1 x hx)
        · exact fun x hx => List.mem_cons_of_mem c (hih.2 x hx)

theorem splitOnSeqAux_mem (sep : List Char) :
    ∀ (fuel : ℕ) (s : List Char), ∀ p ∈ splitOnSeqAux sep fuel s, ∀ c ∈ p, c ∈ s := by
  intro fuel
  induction fuel with
  | zero =>
      intro s p hp c hc
      simp only [splitOnSeqAux, List.mem_singleton] at hp
      subst hp; exact hc
  | succ fuel ih =>
      intro s p hp c hc
      simp only [splitOnSeqAux] at hp
      cases hb : breakSeq sep s with
      | none =>
          rw [hb] at hp
          simp only [List.mem_singleton] at hp
          subst hp; exact hc
      | some pr =>
          obtain ⟨b, rest⟩ := pr
          rw [hb] at hp
          rcases List.mem_cons.mp hp with hp | hp
          · exact (breakSeq_mem sep s b rest hb).1 c (hp ▸ hc)
          · exact (breakSeq_mem sep s b rest hb).2 c (ih rest p hp c hc)

theorem splitOnSeq_exists_cons (sep s : List Char) :
    ∃ tl, splitOnSeq sep s = ((splitOnSeq sep s).getD 0 []) :: tl := by
  have h : ∃ hd tl, splitOnSeq sep s = hd :: tl := by
    unfold splitOnSeq
    simp only [splitOnSeqAux]
    cases hb : breakSeq sep s with
    | none => exact ⟨s, [], rfl⟩
    | some pr =>
        obtain ⟨b0, rest0⟩ := pr
        exact ⟨b0, splitOnSeqAux sep s.length rest0, rfl⟩
  obtain ⟨hd, tl, htl⟩ := h
  exact ⟨tl, by rw [htl]; rfl⟩

theorem scanHeadersAux_all_space :
    ∀ (fuel : ℕ) (s : List Char), (∀ c ∈ s, goIsSpace c = true) →
      scanHeadersAux fuel s = [] := by
  intro fuel
  induction fuel with
  | zero => intro s h; rfl
  | succ fuel ih =>
      intro s h
      cases s with
      | nil => rfl
      | cons c t =>
          have hc : goIsSpace c = true := h c (by simp)
          have hcb : ¬ c = '[' := by
            intro h2; rw [h2] at hc; exact absurd hc (by decide)
          have hm : matchHeaderAt (c :: t) = none := by
            simp only [matchHeaderAt]
            simp [hcb]
          simp only [scanHeadersAux, hm]
          exact ih t (fun x hx => h x (List.mem_cons_of_mem c hx))

/-- Claim C5: validation fails for every transcript missing one of the
seven required headers, for every empty transcript, and for every
transcript whose moves section is empty after the blank-line separation;
a transcript with all seven headers and a non-empty moves section passes
validation. -/
theorem claim5_validation (pgn : List Char) :
    (trimSpace pgn = [] → ∃ e, validatePGN pgn = .error e) ∧
    (∀ h ∈ requiredHeaders,
        (headerKeys (parseHeaders ((splitOnSeq nnSep pgn).getD 0 []))).contains h = false →
        ∃ e, validatePGN pgn = .error e) ∧
    ((splitOnSeq nnSep pgn).length < 2 → ∃ e, validatePGN pgn = .error e) ∧
    (trimSpace ((splitOnSeq nnSep pgn).getD 1 []) = [] → ∃ e, validatePGN pgn = .error e) ∧
    ((∀ h ∈ requiredHeaders,
        (headerKeys (parseHeaders ((splitOnSeq nnSep pgn).getD 0 []))).contains h = true) →
      2 ≤ (splitOnSeq nnSep pgn).length →
      trimSpace ((splitOnSeq nnSep pgn).getD 1 []) ≠ [] →
      validatePGN pgn = .ok ()) := by
  refine ⟨?_, ?_, ?_, ?_, ?_⟩
  · intro h
    exact ⟨"empty PGN", by unfold validatePGN; rw [if_pos h]⟩
  · intro h hreq hmiss
    by_cases htr : trimSpace pgn = []
    · exact ⟨"empty PGN", by unfold validatePGN; rw [if_pos htr]⟩
    · have hne : firstMissing requiredHeaders
          (parseHeaders ((splitOnSeq nnSep pgn).getD 0 [])) ≠ none := by
        intro hnone
        have hx := List.find?_eq_none.mp hnone h hreq
        rw [hmiss] at hx
        exact hx (by decide)
      obtain ⟨hh, hsome⟩ := Option.ne_none_iff_exists'.mp hne
      exact ⟨"missing required header: " ++ hh, by
        unfold validatePGN; rw [if_neg htr, hsome]⟩
  · intro hlen
    by_cases htr : trimSpace pgn = []
    · exact ⟨"empty PGN", by unfold validatePGN; rw [if_pos htr]⟩
    · cases hfm : firstMissing requiredHeaders
          (parseHeaders ((splitOnSeq nnSep pgn).getD 0 [])) with
      | some hh =>
          exact ⟨"missing required header: " ++ hh, by
            unfold validatePGN; rw [if_neg htr, hfm]⟩
      | none =>
          exact ⟨"missing moves section", by
            unfold validatePGN
            rw [if_neg htr]
            simp only [hfm]
            rw [if_pos hlen]⟩
  · intro hmv
    by_cases htr : trimSpace pgn = []
    · exact ⟨"empty PGN", by unfold validatePGN; rw [if_pos htr]⟩
    · cases hfm : firstMissing requiredHeaders
          (parseHeaders ((splitOnSeq nnSep pgn).getD 0 [])) with
      | some hh =>
          exact ⟨"missing required header: " ++ hh, by
            unfold validatePGN; rw [if_neg htr, hfm]⟩
      | none =>
          by_cases hlen : (splitOnSeq nnSep pgn).length < 2
          · exact ⟨"missing moves section", by
              unfold validatePGN
              rw [if_neg htr]
              simp only [hfm]
              rw [if_pos hlen]⟩
          · exact ⟨"empty moves section", by
              unfold validatePGN
              rw [if_neg htr]
              simp only [hfm]
              rw [if_neg hlen, if_pos hmv]⟩
  · intro hall hlen hmv
    have hne : trimSpace pgn ≠ [] := by
      intro htr
      have hws : ∀ c ∈ pgn, goIsSpace c = true := trimSpace_eq_nil_all pgn htr
      obtain ⟨tl, htl⟩ := splitOnSeq_exists_cons nnSep pgn
      have hmem : (splitOnSeq nnSep pgn).getD 0 [] ∈ splitOnSeq nnSep pgn := by
        rw [htl]; exact List.mem_cons_self _ _
      have hsub : ∀ c ∈ (splitOnSeq nnSep pgn).getD 0 [], c ∈ pgn :=
        splitOnSeqAux_mem nnSep (pgn.length + 1) pgn _ hmem
      have hhd : parseHeaders ((splitOnSeq nnSep pgn).getD 0 []) = [] := by
        unfold parseHeaders
        rw [scanHeadersAux_all_space _ _ (fun c hc => hws c (hsub c hc))]
        rfl
      have hev := hall "event" (by simp [requiredHeaders])
      rw [hhd] at hev
      exact absurd hev (by decide)
    have hfm : firstMissing requiredHeaders
        (parseHeaders ((splitOnSeq nnSep pgn).getD 0 [])) = none := by
      apply List.find?_eq_none.mpr
      intro x hx
      rw [hall x hx]
      decide
    have hlen2 : ¬ (splitOnSeq nnSep pgn).length < 2 := by omega
    unfold validatePGN
    rw [if_neg hne]
    simp only [hfm]
    rw [if_neg hlen2, if_neg hmv]

set_option maxRecDepth 100000 in
theorem claim5_witness : validatePGN validTestPGN = .ok () := by
  exact (claim5_validation validTestPGN).2.2.2.2
    (by with_unfolding_all decide)
    (by with_unfolding_all decide)
    (by with_unfolding_all decide)

/-- Claim C6: the moves section `1. e4 e5 2. Nf3 Nc6 1-0` parses to
exactly 4 moves with alternating sides in order (e4 white move 1, e5 black
move 1, Nf3 white move 2, Nc6 black move 2), and the result string `1-0`
is recorded and stripped from the move list. -/
theorem claim6_two_ply_sequence :
    parseMoves "1. e4 e5 2. Nf3 Nc6 1-0".data =
      ([⟨1, "e4".data, "white", []⟩, ⟨1, "e5".data, "black", []⟩,
        ⟨2, "Nf3".data, "white", []⟩, ⟨2, "Nc6".data, "black", []⟩],
       "1-0".data) := by
  with_unfolding_all decide

/-- Claim C9: a token that is neither a move-number token nor a result
marker contributes a parsed move only after a move-number token has
appeared earlier on the same line: every move token preceding the first
move-number token of its line is silently dropped (the token state starts
at move number 0 and moves are emitted only when it is positive), so a
movetext continuation line that does not repeat a move number loses its
leading moves, as the concrete wrap-around transcript shows (e5 is lost).
-/
theorem claim9_leading_tokens_dropped :
    (∀ (pre post : List (List Char)), (∀ t ∈ pre, endsWithDot t = false) →
        parseMoveLineAux (pre ++ post) 0 0 = parseMoveLineAux post 0 0) ∧
    parseMoves "1. e4\ne5 2. Nf3 Nc6".data =
      ([⟨1, "e4".data, "white", []⟩, ⟨2, "Nf3".data, "white", []⟩,
        ⟨2, "Nc6".data, "black", []⟩], []) := by
  constructor
  · intro pre post hpre
    induction pre with
    | nil => simp
    | cons t rest ih =>
        have ht : endsWithDot t = false := hpre t (by simp)
        have hrest : ∀ x ∈ rest, endsWithDot x = false := fun x hx =>
          hpre x (List.mem_cons_of_mem t hx)
        have hih := ih hrest
        by_cases hres : isResultToken t = true
        · simpa [parseMoveLineAux, ht, hres] using hih
        · simpa [parseMoveLineAux, ht, hres] using hih
  · with_unfolding_all decide

theorem claim9_witness :
    parseMoveLineAux (["e5".data] ++ ["2.".data, "Nf3".data]) 0 0 =
      parseMoveLineAux ["2.".data, "Nf3".data] 0 0 := by
  exact claim9_leading_tokens_dropped.1 ["e5".data] ["2.".data, "Nf3".data]
    (by intro t ht; simp at ht; subst ht; with_unfolding_all decide)

theorem claim1_witness :
    (0 : ℚ) ≤ sampleResultFifth.evaluation ∧
      (createMoveAnalysis sampleParsedMove sampleResultFifth 1).accuracy = 98 := by
  refine ⟨by norm_num [sampleResultFifth], ?_⟩
  have h := (claim1_accuracy_classification sampleParsedMove sampleResultFifth 1).1.1
    (by norm_num [sampleResultFifth])
  rw [h]; norm_num [sampleResultFifth]

theorem updateDepthNodesTime_evaluation (line : List Char) (r : AnalysisResult) :
    (updateDepthNodesTime line r).evaluation = r.evaluation := by
  unfold updateDepthNodesTime
  split_ifs <;> rfl

theorem extractInt_nonneg (line key : List Char) : 0 ≤ extractInt line key := by
  unfold extractInt
  cases h : scanIntAux (line.length + 1) key line with
  | none => simp
  | some n =>
      by_cases hb : n ≤ 9223372036854775807
      · simp [hb]
      · simp [hb]

theorem extractInt_le_maxInt64 (line key : List Char) :
    extractInt line key ≤ 9223372036854775807 := by
  unfold extractInt
  cases h : scanIntAux (line.length + 1) key line with
  | none => norm_num
  | some n =>
      show (if n ≤ 9223372036854775807 then (n : ℤ) else 0) ≤ 9223372036854775807
      by_cases hb : n ≤ 9223372036854775807
      · rw [if_pos hb]
        exact_mod_cast hb
      · rw [if_neg hb]
        norm_num

/-! ## Claim C3 -/

/-- C3 counterexample: on the info line `info depth 10 score mate -3` the
claimed evaluation is `-1000 - (-3) = -997`, but the unsigned-integer
pattern of `extractInt` cannot match `-3`, so no mate score is extracted
and the evaluation stays at its initial value 0. -/
theorem claim3_counterexample :
    (parseInfoLine "info depth 10 score mate -3".data {} []).1.evaluation = 0 ∧
      ((-1000 : ℚ) - (-3 : ℤ) = -997) ∧
      ¬ ((parseInfoLine "info depth 10 score mate -3".data {} []).1.evaluation = -997) := by
  refine ⟨?_, by norm_num, ?_⟩
  · with_unfolding_all decide
  · intro h
    rw [(by with_unfolding_all decide :
      (parseInfoLine "info depth 10 score mate -3".data {} []).1.evaluation = (0 : ℚ))] at h
    norm_num at h

/-- Claim C3 (amended): a line carrying a nonzero centipawn score
`score cp N` yields an evaluation of `N/100` pawns (a zero centipawn
score leaves the evaluation unchanged); a line carrying a forced-mate
score `score mate M` with `M > 0` (and no nonzero centipawn score) yields
`1000 - M`; a negative mate score is never extracted — the integer
extractor's pattern matches only unsigned digit strings, so its value is
always nonnegative and the source's negative-mate branch is unreachable —
and such a line leaves the evaluation unchanged; the extracted mate value
is also bounded by the 64-bit integer range (`strconv.Atoi` fails above
it and the extractor falls through to 0), as the concrete over-range line
`info score mate 9999999999999999999` shows; within bounded ranges (mate
distance at most 500, centipawn magnitude at most 49999) a positive mate
score still has larger magnitude than every centipawn-derived score. -/
theorem claim3_evaluation_extraction (line : List Char) (r : AnalysisResult)
    (pvLines : List (List Char)) :
    (∀ z : ℤ, extractFloatInt line "score cp".data = z → z ≠ 0 →
      (parseInfoLine line r pvLines).1.evaluation = (z : ℚ) / 100) ∧
    (∀ m : ℤ, extractFloatInt line "score cp".data = 0 →
      extractInt line "score mate".data = m → 0 < m →
      (parseInfoLine line r pvLines).1.evaluation = 1000 - (m : ℚ)) ∧
    (0 ≤ extractInt line "score mate".data) ∧
    (extractInt line "score mate".data ≤ 9223372036854775807) ∧
    (extractInt "info score mate 9999999999999999999".data "score mate".data = 0 ∧
      (parseInfoLine "info score mate 9999999999999999999".data {} []).1.evaluation = 0) ∧
    (extractFloatInt line "score cp".data = 0 →
      extractInt line "score mate".data = 0 →
      (parseInfoLine line r pvLines).1.evaluation = r.evaluation) ∧
    (∀ m z : ℤ, 0 < m → m ≤ 500 → z.natAbs ≤ 49999 →
      |(z : ℚ) / 100| < |1000 - (m : ℚ)|) := by
  refine ⟨?_, ?_, extractInt_nonneg line "score mate".data,
    extractInt_le_maxInt64 line "score mate".data,
    ⟨by with_unfolding_all decide, by with_unfolding_all decide⟩, ?_, ?_⟩
  · intro z hz hz0
    simp only [parseInfoLine, updateEvaluation, hz, if_pos hz0]
  · intro m hcp hm hm0
    have hm0' : m ≠ 0 := by omega
    simp only [parseInfoLine, updateEvaluation, hcp, hm]
    simp only [if_neg (by simp : ¬ ((0 : ℤ) ≠ 0)), if_pos hm0', if_pos hm0]
  · intro hcp hm
    simp only [parseInfoLine, updateEvaluation, hcp, hm]
    simp only [if_neg (by simp : ¬ ((0 : ℤ) ≠ 0))]
    exact updateDepthNodesTime_evaluation line r
  · intro m z hm0 hm500 hz
    have hz1 : (-49999 : ℤ) ≤ z := by omega
    have hz2 : z ≤ 49999 := by omega
    have hzq : |(z : ℚ)| ≤ 49999 := by
      rw [abs_le]
      exact ⟨by exact_mod_cast hz1, by exact_mod_cast hz2⟩
    have habs : |(z : ℚ) / 100| = |(z : ℚ)| / 100 := by
      rw [abs_div]
      norm_num
    have hm' : (m : ℚ) ≤ 500 := by exact_mod_cast hm500
    have habs2 : |1000 - (m : ℚ)| = 1000 - (m : ℚ) := by
      rw [abs_of_nonneg]
      linarith
    rw [habs, habs2]
    have : |(z : ℚ)| / 100 ≤ 49999 / 100 := by linarith
    linarith

theorem claim3_witness :
    (parseInfoLine "info depth 12 score mate 3".data {} []).1.evaluation =
      1000 - ((3 : ℤ) : ℚ) := by
  exact (claim3_evaluation_extraction "info depth 12 score mate 3".data {} []).2.1 3
    (by with_unfolding_all decide)
    (by with_unfolding_all decide)
    (by norm_num)

/-! ## Claims C2, C7, C10 -/

theorem count_acquire_in_calls (l : List ℕ) :
    (l.map PoolEvent.analyzeCall).count PoolEvent.acquire = 0 := by
  rw [List.count_eq_zero]
  intro h
  obtain ⟨i, _, hi⟩ := List.mem_map.mp h
  exact PoolEvent.noConfusion hi

theorem count_release_in_calls (l : List ℕ) :
    (l.map PoolEvent.analyzeCall).count PoolEvent.release = 0 := by
  rw [List.count_eq_zero]
  intro h
  obtain ⟨i, _, hi⟩ := List.mem_map.mp h
  exact PoolEvent.noConfusion hi

/-- C2 counterexample: on a two-move game with no move limit, the pipeline
analyzes 2 moves but performs exactly 1 pool acquisition, so there is not
one acquire/release pair per analyzed move. -/
theorem claim2_counterexample :
    movesToAnalyze game2Moves.length 0 = 2 ∧
    (performGameAnalysisTrace game2Moves 0).count PoolEvent.acquire = 1 ∧
    ¬ ((performGameAnalysisTrace game2Moves 0).count PoolEvent.acquire =
        movesToAnalyze game2Moves.length 0) := by
  refine ⟨by decide, by decide, by decide⟩

/-- Claim C2 (amended): during a full-game analysis the pipeline acquires
a single pooled client before the move loop and releases it once after the
loop; every per-move analysis request happens between that one acquire and
that one release, so the whole game is covered by a single acquisition
rather than one acquire/release pair per move. -/
theorem claim2_single_acquisition (game : List ParsedMove) (maxMoves : ℤ) :
    (performGameAnalysisTrace game maxMoves).count PoolEvent.acquire = 1 ∧
    (performGameAnalysisTrace game maxMoves).count PoolEvent.release = 1 ∧
    (performGameAnalysisTrace game maxMoves).head? = some PoolEvent.acquire ∧
    (performGameAnalysisTrace game maxMoves).getLast? = some PoolEvent.release ∧
    ((performGameAnalysisTrace game maxMoves).filter isAnalyzeCall).length =
      movesToAnalyze game.length maxMoves := by
  refine ⟨?_, ?_, rfl, ?_, ?_⟩
  · unfold performGameAnalysisTrace
    rw [List.count_cons_self, List.count_append, count_acquire_in_calls]
    rfl
  · unfold performGameAnalysisTrace
    rw [List.count_cons_of_ne (by decide), List.count_append, count_release_in_calls]
    rfl
  · unfold performGameAnalysisTrace
    rw [← List.cons_append, List.getLast?_concat]
  · unfold performGameAnalysisTrace
    rw [List.filter_cons_of_neg (by decide), List.filter_append]
    rw [List.filter_cons_of_neg (by decide), List.filter_nil, List.append_nil]
    rw [List.filter_map]
    have h : (isAnalyzeCall ∘ PoolEvent.analyzeCall) = fun _ => true := by
      funext i; rfl
    rw [h, List.filter_true, List.length_map, List.length_range]

theorem tallyWhite_moves (st : LoopState) (ma : MoveAnalysis) :
    (tallyWhite st ma).moves = st.moves := by
  unfold tallyWhite; split_ifs <;> rfl

theorem tallyBlack_moves (st : LoopState) (ma : MoveAnalysis) :
    (tallyBlack st ma).moves = st.moves := by
  unfold tallyBlack; split_ifs <;> rfl

theorem stepMove_moves (game : List ParsedMove) (analyze : ℕ → Option AnalysisResult)
    (st : LoopState) (i : ℕ) :
    (stepMove game analyze st i).moves =
      st.moves ++ ((analyze i).map (fun r =>
        createMoveAnalysis (game.getD i ⟨0, [], "", []⟩) r ((i : ℤ) + 1))).toList := by
  unfold stepMove
  cases h : analyze i with
  | none => simp
  | some r =>
      simp only [Option.map_some', Option.toList_some]
      by_cases hc : (game.getD i ⟨0, [], "", []⟩).color = "white"
      · rw [if_pos hc, tallyWhite_moves]
      · rw [if_neg hc, tallyBlack_moves]

theorem foldl_stepMove_moves (game : List ParsedMove) (analyze : ℕ → Option AnalysisResult) :
    ∀ (l : List ℕ) (st : LoopState),
      (l.foldl (stepMove game analyze) st).moves =
        st.moves ++ l.filterMap (fun i => (analyze i).map (fun r =>
          createMoveAnalysis (game.getD i ⟨0, [], "", []⟩) r ((i : ℤ) + 1))) := by
  intro l
  induction l with
  | nil => intro st; simp
  | cons i rest ih =>
      intro st
      simp only [List.foldl_cons, List.filterMap_cons]
      rw [ih, stepMove_moves]
      cases h : analyze i with
      | none => simp [h]
      | some r => simp [h, List.append_assoc]

theorem calculateGameStatistics_moves (ga : GameAnalysis) (st : LoopState) :
    (calculateGameStatistics ga st).moves = ga.moves := by
  unfold calculateGameStatistics
  split_ifs <;> rfl

theorem performGameAnalysis_moves (game : List ParsedMove)
    (analyze : ℕ → Option AnalysisResult) (maxMoves : ℤ) (pgn : List Char) :
    (performGameAnalysis game analyze maxMoves pgn).moves =
      (List.range (movesToAnalyze game.length maxMoves)).filterMap
        (fun i => (analyze i).map (fun r =>
          createMoveAnalysis (game.getD i ⟨0, [], "", []⟩) r ((i : ℤ) + 1))) := by
  unfold performGameAnalysis
  rw [calculateGameStatistics_moves]
  exact foldl_stepMove_moves game analyze _ {}

/-- Claim C7: during a full-game analysis every failed per-move analysis
request is skipped — the result's move list consists exactly of the
successfully analyzed moves, in order — and `AnalyzeGame` aborts with an
error only when transcript validation or parsing fails (engine-pool
construction happens before `AnalyzeGame` is reachable, in the service
constructor, and is the only other aborting failure). -/
theorem claim7_per_move_failures_skipped :
    (∀ (pgn : List Char) (analyze : ℕ → Option AnalysisResult) (maxMoves : ℤ) (e : String),
      analyzeGame pgn analyze maxMoves = .error e →
        (∃ e1, validatePGN pgn = .error e1) ∨ (∃ e2, parsePGN pgn = .error e2)) ∧
    (∀ (game : List ParsedMove) (analyze : ℕ → Option AnalysisResult)
        (maxMoves : ℤ) (pgn : List Char),
      (performGameAnalysis game analyze maxMoves pgn).moves =
        (List.range (movesToAnalyze game.length maxMoves)).filterMap
          (fun i => (analyze i).map (fun r =>
            createMoveAnalysis (game.getD i ⟨0, [], "", []⟩) r ((i : ℤ) + 1)))) := by
  constructor
  · intro pgn analyze maxMoves e h
    unfold analyzeGame at h
    cases hv : validatePGN pgn with
    | error e1 => exact Or.inl ⟨e1, rfl⟩
    | ok u =>
        rw [hv] at h
        cases hp : parsePGN pgn with
        | error e2 => exact Or.inr ⟨e2, rfl⟩
        | ok g =>
            rw [hp] at h
            exact absurd h (by simp)
  · exact performGameAnalysis_moves

theorem claim7_witness :
    (∃ e1, validatePGN [] = Except.error e1) ∨ (∃ e2, parsePGN [] = Except.error e2) := by
  exact claim7_per_move_failures_skipped.1 [] (fun _ => none) 0
    "validation error: empty PGN" (by with_unfolding_all rfl)

/-- Claim C10: the per-side accuracy division has no zero guard — only the
total move count is checked.  On a two-move game whose first per-move
analysis fails, the single surviving move has (loop-index based) move
number 2, so every analyzed move is attributed to black; the guard passes
(total moves 1 ≠ 0) and the white accuracy is computed as 0/0, which is
not a finite number (`none` under the finite/non-finite model of float
division). -/
theorem claim10_zero_division_side_accuracy :
    (performGameAnalysis game2Moves analyzeFailFirst 0 []).summary.totalMoves = 1 ∧
    (performGameAnalysis game2Moves analyzeFailFirst 0 []).summary.totalMoves ≠ 0 ∧
    (tallySides (performGameAnalysis game2Moves analyzeFailFirst 0 []).moves).whiteMoves = 0 ∧
    (performGameAnalysis game2Moves analyzeFailFirst 0 []).accuracy.whiteAccuracy = none ∧
    (performGameAnalysis game2Moves analyzeFailFirst 0 []).accuracy.blackAccuracy = some 100 := by
  refine ⟨?_, ?_, ?_, ?_, ?_⟩ <;> with_unfolding_all decide

theorem removeHeld_perm (p : ℕ × ℕ) :
    ∀ (l : List (ℕ × ℕ)), p ∈ l → List.Perm l (p :: removeHeld l p) := by
  intro l
  induction l with
  | nil => intro h; exact absurd h (List.not_mem_nil p)
  | cons q t ih =>
      intro h
      by_cases hq : q = p
      · subst hq
        simp only [removeHeld, if_pos rfl]
        exact List.Perm.refl _
      · have hpt : p ∈ t := by
          rcases List.mem_cons.mp h with h1 | h1
          · exact absurd h1.symm hq
          · exact h1
        simp only [removeHeld, if_neg hq]
        exact ((ih hpt).cons q).trans (List.Perm.swap p q _)

theorem removeHeld_length (p : ℕ × ℕ) (l : List (ℕ × ℕ)) (h : p ∈ l) :
    (removeHeld l p).length + 1 = l.length := by
  have hp := (removeHeld_perm p l h).length_eq
  simp only [List.length_cons] at hp
  omega

theorem nodup_map_snd_inj :
    ∀ (l : List (ℕ × ℕ)), (l.map Prod.snd).Nodup →
      ∀ p q : ℕ × ℕ, p ∈ l → q ∈ l → p.2 = q.2 → p = q := by
  intro l
  induction l with
  | nil => intro _ p q hp; exact absurd hp (List.not_mem_nil p)
  | cons a t ih =>
      intro hnd p q hp hq heq
      simp only [List.map_cons, List.nodup_cons] at hnd
      obtain ⟨hna, hnt⟩ := hnd
      rcases List.mem_cons.mp hp with hp1 | hp1 <;> rcases List.mem_cons.mp hq with hq1 | hq1
      · rw [hp1, hq1]
      · subst hp1
        exact absurd (heq ▸ List.mem_map.mpr ⟨q, hq1, rfl⟩) hna
      · subst hq1
        exact absurd (heq ▸ List.mem_map.mpr ⟨p, hp1, rfl⟩) hna
      · exact ih hnt p q hp1 hq1 heq

theorem poolInv_step (n : ℕ) (s t : PoolState) (hstep : PoolStep s t)
    (hinv : poolInv n s) : poolInv n t := by
  obtain ⟨hnd, hlen⟩ := hinv
  cases hstep with
  | acquire c e idle held =>
      constructor
      · have hnd' : (e :: (idle ++ held.map Prod.snd)).Nodup := by
          simpa using hnd
        have hperm : List.Perm (e :: (idle ++ held.map Prod.snd))
            (idle ++ e :: held.map Prod.snd) := List.perm_middle.symm
        simpa using hperm.nodup hnd'
      · simp only [List.length_cons] at hlen ⊢
        omega
  | release c e idle held hmem =>
      constructor
      · have hperm1 : List.Perm (held.map Prod.snd)
            (e :: (removeHeld held (c, e)).map Prod.snd) := by
          have h0 := (removeHeld_perm (c, e) held hmem).map Prod.snd
          simpa using h0
        have hperm : List.Perm (idle ++ held.map Prod.snd)
            ((idle ++ [e]) ++ (removeHeld held (c, e)).map Prod.snd) := by
          have h1 : List.Perm (idle ++ held.map Prod.snd)
              (idle ++ e :: (removeHeld held (c, e)).map Prod.snd) :=
            List.Perm.append_left idle hperm1
          simpa [List.append_assoc] using h1
        exact hperm.nodup hnd
      · have h2 := removeHeld_length (c, e) held hmem
        simp only [List.length_append, List.length_singleton] at hlen ⊢
        omega

theorem poolInv_reachable (n : ℕ) (s : PoolState) (h : PoolReachable n s) :
    poolInv n s := by
  induction h with
  | init =>
      constructor
      · simpa [initPool] using List.nodup_range n
      · simp [initPool]
  | step _ hstep ih => exact poolInv_step n _ _ hstep ih

/-- Claim C8: in every reachable pool state, no client is held by two
callers at once, an idle client is never simultaneously held, an acquire
can complete only when an idle client exists — with all n clients held
(the (n+1)-th concurrent acquire) the idle queue is empty, so no acquire
transition is enabled until a release occurs — and a release from that
full state leaves exactly one idle client, unblocking exactly one waiter;
idle plus held clients always total n. -/
theorem claim8_pool_blocking (n : ℕ) (s : PoolState) (h : PoolReachable n s) :
    (∀ c1 c2 e, (c1, e) ∈ s.held → (c2, e) ∈ s.held → c1 = c2) ∧
    (∀ c e, (c, e) ∈ s.held → e ∉ s.idle) ∧
    (s.held.length = n → s.idle = []) ∧
    (∀ t : PoolState, s.held.length = n → PoolStep s t → t.idle.length = 1) ∧
    s.idle.length + s.held.length = n := by
  obtain ⟨hnd, hlen⟩ := poolInv_reachable n s h
  have hidle_of_full : s.held.length = n → s.idle = [] := by
    intro hfull
    have h0 : s.idle.length = 0 := by omega
    exact List.length_eq_zero.mp h0
  refine ⟨?_, ?_, hidle_of_full, ?_, hlen⟩
  · intro c1 c2 e h1 h2
    have hpairs := nodup_map_snd_inj s.held ((List.nodup_append.mp hnd).2.1)
      (c1, e) (c2, e) h1 h2 rfl
    exact congrArg Prod.fst hpairs
  · intro c e hheld hidle
    exact (List.nodup_append.mp hnd).2.2 hidle (List.mem_map.mpr ⟨(c, e), hheld, rfl⟩)
  · intro t hfull hstep
    have hidle := hidle_of_full hfull
    cases hstep with
    | acquire c e idle held =>
        exact absurd hidle (by simp)
    | release c e idle held hmem =>
        simp only at hidle
        rw [hidle]
        rfl

theorem claim8_witness : (⟨[], [(7, 1), (5, 0)]⟩ : PoolState).idle = [] := by
  have hreach : PoolReachable 2 ⟨[], [(7, 1), (5, 0)]⟩ :=
    PoolReachable.step
      (PoolReachable.step PoolReachable.init (PoolStep.acquire 5 0 [1] []))
      (PoolStep.acquire 7 1 [] [(5, 0)])
  exact (claim8_pool_blocking 2 _ hreach).2.2.1 (by decide)

end ChessAnalyser
